import Mathlib

/-!
Verification development for the `mdc` markdown compiler crate
(`crates/compiler`).  The Rust sources are shallowly embedded: every
grammar rule `T::parse(&mut input)` becomes a Lean function
`T.parse : TokenStream → Except MarkDownError T × TokenStream`
returning the produced node (or the error value) together with the
cursor as it stands when the function returns.  `FencedCodeBlock::parse`
contains an `assert_eq!`, so its embedding returns an `Option`, with
`none` marking the panic.

The `parserc` support crate (spans, the `Input` implementation and the
combinator primitives) and the crate's `input` module are not part of
the embedded sources; their behaviour is modelled from the design
document, and each such definition is marked `Modelled from the spec`.
-/

namespace MDC

/-- Modelled from the spec: `parserc::ControlFlow`, the two-valued
control-flow tag attached to every parse error (`Recovable` keeps the
source's spelling). -/
inductive ControlFlow where
  | Recovable : ControlFlow
  | Fatal : ControlFlow
deriving DecidableEq, Repr

/-- Modelled from the spec: `parserc::Span`, provenance information.
`Range a b` is the half-open byte range `[a, b)`; `None` is the
empty/unknown span. -/
inductive Span where
  | None : Span
  | Range : Nat → Nat → Span
deriving DecidableEq, Repr

/-- Modelled from the spec: spans union associatively; on ranges the
union is the smallest enclosing range, and `None` is the identity. -/
def Span.union : Span → Span → Span
  | .None, s => s
  | s, .None => s
  | .Range a b, .Range c d => .Range (min a c) (max b d)

/-- Modelled from the spec: the `TokenStream` input type of the missing
`input` module — an immutable view of source text that remembers the
absolute offset of its first character. -/
structure TokenStream where
  start : Nat
  content : List Char
deriving DecidableEq, Repr

def TokenStream.len (s : TokenStream) : Nat := s.content.length

def TokenStream.to_span (s : TokenStream) : Span :=
  .Range s.start (s.start + s.content.length)

def TokenStream.isEmpty (s : TokenStream) : Bool := s.content.isEmpty

/-- Advance the cursor by `n` characters. -/
def TokenStream.advance (s : TokenStream) (n : Nat) : TokenStream :=
  ⟨s.start + n, s.content.drop n⟩

/-- `split_to(n)`: the first `n` characters as a fresh slice. -/
def TokenStream.split_to (s : TokenStream) (n : Nat) : TokenStream :=
  ⟨s.start, s.content.take n⟩

/-- Rust `char::is_whitespace` (the Unicode `White_Space` property). -/
def isUnicodeWhitespace (c : Char) : Bool :=
  (0x09 ≤ c.val && c.val ≤ 0x0D) || c.val == 0x20 || c.val == 0x85 ||
  c.val == 0xA0 || c.val == 0x1680 || (0x2000 ≤ c.val && c.val ≤ 0x200A) ||
  c.val == 0x2028 || c.val == 0x2029 || c.val == 0x202F || c.val == 0x205F ||
  c.val == 0x3000

/-- The whitespace predicate of `S` / `Identation`: whitespace that is
not a line-ending character (`s.rs`). -/
def isMdWs (c : Char) : Bool :=
  c != '\n' && c != '\r' && isUnicodeWhitespace c

/-- Fence characters of `Fenced` (`code.rs`): tilde or backquote
(code point 96). -/
def isFenceChar (c : Char) : Bool := c == '~' || c.val == 96

/-- Modelled from the spec: the error-kind taxonomy of the missing
`input` module (one kind per grammar rule, §3 and §7 of the design
document).  `Primitive` stands for an error of a `parserc` primitive
that escapes unwrapped (`parserc::Kind`). -/
inductive Kind where
  | LineEnding : Kind
  | LeadingWhiteSpace : Kind
  | LeadingPounds : Kind
  | Escaped : Kind
  | Entity : Kind
  | Thematic : Kind
  | S : Kind
  | ATXHeading : Kind
  | BlankLine : Kind
  | IdentationNonblankChunk : Kind
  | IdentationBlankChunk : Kind
  | FencedCodeBlock : Kind
  | Primitive : Kind
deriving DecidableEq, Repr

/-- The error value used by the current-generation modules:
`MarkDownError::Kind(Kind, ControlFlow, Span)`. -/
inductive MarkDownError where
  | Kind : Kind → ControlFlow → Span → MarkDownError
deriving DecidableEq, Repr

def MarkDownError.kind : MarkDownError → MDC.Kind
  | .Kind k _ _ => k

def MarkDownError.control_flow : MarkDownError → ControlFlow
  | .Kind _ cf _ => cf

def MarkDownError.span : MarkDownError → Span
  | .Kind _ _ sp => sp

/-- `Kind::map()`: rewrap an inner error under this kind, preserving its
control flow and span (§7 of the design document). -/
def Kind.wrap (k : Kind) (e : MarkDownError) : MarkDownError :=
  .Kind k e.control_flow e.span

/-- Result of one parse step: the node or the error, plus the cursor as
left behind by the call (errors do not restore it; callers do). -/
abbrev PResult (α : Type) := Except MarkDownError α × TokenStream

/-- Modelled from the spec: `take_while` — the maximal prefix run
satisfying the predicate, never failing.  Returns the run and the
advanced cursor. -/
def takeRun (p : Char → Bool) (s : TokenStream) : TokenStream × TokenStream :=
  (⟨s.start, s.content.takeWhile p⟩,
   ⟨s.start + (s.content.takeWhile p).length, s.content.dropWhile p⟩)

/-- Modelled from the spec: `take_till p = take_while (not p)`. -/
def takeTill (p : Char → Bool) (s : TokenStream) : TokenStream × TokenStream :=
  takeRun (fun c => !(p c)) s

/-- Index of the first occurrence of `pat` as a contiguous substring. -/
def firstOcc (pat : List Char) : List Char → Option Nat
  | [] => if pat.isPrefixOf ([] : List Char) then some 0 else none
  | c :: cs =>
    if pat.isPrefixOf (c :: cs) then some 0
    else (firstOcc pat cs).map (· + 1)

/-- Modelled from the spec: `take_until(pat)` — everything before the
first occurrence of `pat`, leaving the cursor at the occurrence;
`none` when `pat` does not occur. -/
def takeUntilTS (pat : List Char) (s : TokenStream) :
    Option (TokenStream × TokenStream) :=
  (firstOcc pat s.content).map fun i =>
    (⟨s.start, s.content.take i⟩, ⟨s.start + i, s.content.drop i⟩)

/-- `S` (`s.rs`): a possibly-empty run of non-line-breaking whitespace. -/
structure S where
  inner : TokenStream
deriving DecidableEq, Repr

def S.parse (s : TokenStream) : PResult S :=
  let (run, rest) := takeRun isMdWs s
  (.ok ⟨run⟩, rest)

def S.to_span (v : S) : Span := v.inner.to_span

/-- Modelled from the spec: `Identation`, the delimiter of the
thematic-break `Punctuated` list — a non-empty run of non-line-breaking
whitespace (fails `Recovable` on an empty run, like `S1`). -/
structure Identation where
  inner : TokenStream
deriving DecidableEq, Repr

def Identation.parse (s : TokenStream) : PResult Identation :=
  let (run, rest) := takeRun isMdWs s
  if run.content.isEmpty then
    (.error (.Kind .S .Recovable run.to_span), s)
  else
    (.ok ⟨run⟩, rest)

def Identation.to_span (v : Identation) : Span := v.inner.to_span

/-- `IndentationTo<I, N>` (`s.rs`): up to `N` spaces of indentation —
applies `S` and fails `Recovable` when the run is longer than `N`
(`LimitsTo` modelled from the spec). -/
structure IndentationTo (N : Nat) where
  inner : TokenStream
deriving DecidableEq, Repr

def IndentationTo.parse (N : Nat) (s : TokenStream) :
    PResult (IndentationTo N) :=
  let (run, rest) := takeRun isMdWs s
  if N < run.content.length then
    (.error (.Kind .LeadingWhiteSpace .Recovable run.to_span), rest)
  else
    (.ok ⟨run⟩, rest)

def IndentationTo.to_span {N : Nat} (v : IndentationTo N) : Span :=
  v.inner.to_span

/-- `IndentationFrom<I, N>` (`s.rs`): `N` or more spaces of indentation —
applies `S` and fails `Recovable` when the run is shorter than `N`
(`LimitsFrom` modelled from the spec). -/
structure IndentationFrom (N : Nat) where
  inner : TokenStream
deriving DecidableEq, Repr

def IndentationFrom.parse (N : Nat) (s : TokenStream) :
    PResult (IndentationFrom N) :=
  let (run, rest) := takeRun isMdWs s
  if run.content.length < N then
    (.error (.Kind .LeadingWhiteSpace .Recovable run.to_span), rest)
  else
    (.ok ⟨run⟩, rest)

def IndentationFrom.to_span {N : Nat} (v : IndentationFrom N) : Span :=
  v.inner.to_span

/-- `LineEnding` (`s.rs`): `LF` is `"\n"`, `CrLf` is `"\r\n"`; anything
else is a `Recovable` failure of kind `LineEnding`. -/
inductive LineEnding where
  | LF : TokenStream → LineEnding
  | CrLf : TokenStream → LineEnding
deriving DecidableEq, Repr

def LineEnding.parse (s : TokenStream) : PResult LineEnding :=
  if s.content.head? = some '\n' then
    (.ok (.LF ⟨s.start, ['\n']⟩), s.advance 1)
  else if s.content.take 2 = ['\r', '\n'] then
    (.ok (.CrLf ⟨s.start, ['\r', '\n']⟩), s.advance 2)
  else
    (.error (.Kind .LineEnding .Recovable
      (.Range s.start (s.start + min 1 s.content.length))), s)

def LineEnding.to_span : LineEnding → Span
  | .LF v => v.to_span
  | .CrLf v => v.to_span

/-- Length in characters of an optional line ending. -/
def lineEndingLen : Option LineEnding → Nat
  | none => 0
  | some (.LF _) => 1
  | some (.CrLf _) => 2

/-- Span of an optional sub-node (`Option<T>::to_span`, modelled). -/
def optLineEndingSpan : Option LineEnding → Span
  | none => .None
  | some le => le.to_span

/-- Modelled from the spec: `input.parse::<Option<T>>()` — try the
parser on a clone of the cursor; `Recovable` failure yields `none` with
the cursor untouched, `Fatal` failure propagates (§4.2). -/
def optLineEnding (s : TokenStream) : PResult (Option LineEnding) :=
  match LineEnding.parse s with
  | (.ok le, s1) => (.ok (some le), s1)
  | (.error e, s1) =>
    if e.control_flow = .Fatal then (.error e, s1) else (.ok none, s)

/-- Modelled from the spec: the fixed dictionary of valid HTML5 entity
names (the external `entities` data table, §6); the subset required by
the claims plus common names.  Entries include both delimiters, as in
the `entities` crate. -/
def NAMES : List (List Char) :=
  ["&amp;".toList, "&lt;".toList, "&gt;".toList, "&quot;".toList,
   "&apos;".toList, "&nbsp;".toList, "&copy;".toList, "&AMP;".toList]

/-- The entity-scan cap (`MAX_ENTITY_LEN` in `entity.rs`). -/
def MAX_ENTITY_LEN : Nat := 100

/-- `Entity` (`entity.rs`): a `&name;` HTML5 character reference. -/
structure Entity where
  inner : TokenStream
deriving DecidableEq, Repr

/-- `Entity::parse` (`entity.rs`): requires a leading `&` (checked on a
clone, so the cursor does not move); scans for `;` among the indices
`0..=100`; no `;` in range is a Fatal error with the capped span; a
well-formed `&…;` slice is consumed (`split_to`) and then looked up in
`NAMES`, a miss being Fatal with the cursor already advanced. -/
def Entity.parse (s : TokenStream) : PResult Entity :=
  if s.content.head? = some '&' then
    match (s.content.take (MAX_ENTITY_LEN + 1)).findIdx? (· == ';') with
    | some i =>
      let last := i + 1
      let content := s.split_to last
      let rest := s.advance last
      if content.content ∈ NAMES then
        (.ok ⟨content⟩, rest)
      else
        (.error (.Kind .Entity .Fatal content.to_span), rest)
    | none =>
      (.error (.Kind .Entity .Fatal
        (.Range s.start (s.start + min MAX_ENTITY_LEN s.content.length))), s)
  else
    (.error (.Kind .Entity .Recovable
      (.Range s.start (s.start + min 1 s.content.length))), s)

def Entity.to_span (v : Entity) : Span := v.inner.to_span

/-- `ThematicChars` (`thematic.rs`): one maximal run of a single
thematic character class. -/
inductive ThematicChars where
  | Stars : TokenStream → ThematicChars
  | Underscores : TokenStream → ThematicChars
  | Minus : TokenStream → ThematicChars
deriving DecidableEq, Repr

def ThematicChars.value : ThematicChars → Nat
  | .Stars _ => 1
  | .Underscores _ => 2
  | .Minus _ => 3

def ThematicChars.len : ThematicChars → Nat
  | .Stars v => v.content.length
  | .Underscores v => v.content.length
  | .Minus v => v.content.length

def ThematicChars.to_span : ThematicChars → Span
  | .Stars v => v.to_span
  | .Underscores v => v.to_span
  | .Minus v => v.to_span

/-- `ThematicChars::parse`: ordered alternation of the three token runs
(`*`, then `_`, then `-`); a token is a maximal non-empty run, failing
`Recovable` when empty, so the head character decides the branch. -/
def ThematicChars.parse (s : TokenStream) : PResult ThematicChars :=
  match s.content.head? with
  | some '*' =>
    let (run, rest) := takeRun (· == '*') s
    (.ok (.Stars run), rest)
  | some '_' =>
    let (run, rest) := takeRun (· == '_') s
    (.ok (.Underscores run), rest)
  | some '-' =>
    let (run, rest) := takeRun (· == '-') s
    (.ok (.Minus run), rest)
  | _ =>
    (.error (.Kind .Primitive .Recovable (.Range s.start s.start)), s)

/-- Modelled from the spec: `Punctuated<ThematicChars, Identation>` —
alternating elements and delimiters, exposed as `(element, delimiter)`
pairs plus an optional undelimited trailing element (§4.2). -/
structure PunctuatedTB where
  pairs : List (ThematicChars × Identation)
  tail : Option ThematicChars
deriving DecidableEq, Repr

/-- Modelled from the spec: the derived `to_span` of a `Punctuated`
list — union of the spans of all elements and delimiters. -/
def pairsSpan : List (ThematicChars × Identation) → Option ThematicChars → Span
  | [], none => .None
  | [], some t => t.to_span
  | (t, p) :: rest, tail =>
    ((t.to_span.union p.to_span)).union (pairsSpan rest tail)

def PunctuatedTB.to_span (p : PunctuatedTB) : Span :=
  pairsSpan p.pairs p.tail

/-- Modelled from the spec: `Punctuated::parse` — loop element then
delimiter; element failure ends the list, delimiter failure makes the
element the trailing `tail`.  The `fuel` argument (always called with
more fuel than characters, each round consuming at least one) makes the
recursion structural. -/
def punctuatedBreaks (fuel : Nat) (s : TokenStream) :
    PunctuatedTB × TokenStream :=
  match fuel with
  | 0 => (⟨[], none⟩, s)
  | fuel + 1 =>
    match ThematicChars.parse s with
    | (.error _, _) => (⟨[], none⟩, s)
    | (.ok t, s1) =>
      match Identation.parse s1 with
      | (.error _, _) => (⟨[], some t⟩, s1)
      | (.ok p, s2) =>
        let r := punctuatedBreaks fuel s2
        (⟨(t, p) :: r.1.pairs, r.1.tail⟩, r.2)

/-- The `for (pair, _) in breaks.pairs` loop of `ThematicBreaks::parse`:
first mismatching element, or the summed length of the runs. -/
def checkPairs (id : Nat) :
    List (ThematicChars × Identation) → Except ThematicChars Nat
  | [] => .ok 0
  | (t, _) :: rest =>
    if t.value ≠ id then .error t
    else (checkPairs id rest).map (t.len + ·)

/-- `ThematicBreaks` (`thematic.rs`). -/
structure ThematicBreaks where
  ident_whitespaces : IndentationTo 3
  breaks : PunctuatedTB
  line_ending : Option LineEnding
deriving DecidableEq, Repr

/-- Tail of `ThematicBreaks::parse` after the class checks: the total
delimiter-character count must be at least 3, and after an optional
line ending the line must be exhausted. -/
def finishBreaks (iw : IndentationTo 3) (breaks : PunctuatedTB) (len : Nat)
    (s2 : TokenStream) : PResult ThematicBreaks :=
  if len < 3 then
    (.error (.Kind .Thematic .Recovable breaks.to_span), s2)
  else
    match optLineEnding s2 with
    | (.error e, s3) => (.error e, s3)
    | (.ok le, s3) =>
      if le.isNone ∧ s3.content ≠ [] then
        (.error (.Kind .Thematic .Recovable breaks.to_span), s3)
      else
        (.ok ⟨iw, breaks, le⟩, s3)

/-- `ThematicBreaks::parse` (`thematic.rs`, lines 89–180). -/
def ThematicBreaks.parse (s : TokenStream) : PResult ThematicBreaks :=
  match IndentationTo.parse 3 s with
  | (.error e, s1) => (.error e, s1)
  | (.ok iw, s1) =>
    let (breaks, s2) := punctuatedBreaks (s1.content.length + 1) s1
    match breaks.pairs.head? with
    | none =>
      match breaks.tail with
      | some tail =>
        if tail.len < 3 then
          (.error (.Kind .Thematic .Recovable tail.to_span), s2)
        else
          match optLineEnding s2 with
          | (.error e, s3) => (.error e, s3)
          | (.ok le, s3) =>
            if le.isNone ∧ s3.content ≠ [] then
              (.error (.Kind .Thematic .Recovable breaks.to_span), s3)
            else
              (.ok ⟨iw, breaks, le⟩, s3)
      | none =>
        (.error (.Kind .Thematic .Recovable iw.to_span), s2)
    | some (first, _) =>
      let id := first.value
      match checkPairs id breaks.pairs with
      | .error t => (.error (.Kind .Thematic .Recovable t.to_span), s2)
      | .ok len0 =>
        match breaks.tail with
        | some tail =>
          if tail.value ≠ id then
            (.error (.Kind .Thematic .Recovable tail.to_span), s2)
          else
            finishBreaks iw breaks (len0 + tail.len) s2
        | none =>
          finishBreaks iw breaks len0 s2

/-- `ThematicBreaks::to_span` (`thematic.rs`, lines 182–188): union of
the indentation span and the delimiter-list span only — the optional
line ending is not included. -/
def ThematicBreaks.to_span (v : ThematicBreaks) : Span :=
  v.ident_whitespaces.to_span.union v.breaks.to_span

/-- `Limits<Pounds, 1, 7>` of `header.rs`.  Modelled from the spec: the
pound run must have between 1 and 7 characters inclusive ("exactly 1 to
7 inclusive; 0 or ≥8 is a failure", §4.5), failing `Recovable`
otherwise. -/
def parseLeadingPounds (s : TokenStream) : PResult TokenStream :=
  let (run, rest) := takeRun (· == '#') s
  if 1 ≤ run.content.length ∧ run.content.length ≤ 7 then
    (.ok run, rest)
  else
    (.error (.Kind .Primitive .Recovable run.to_span), rest)

/-- `ATXHeading` (`header.rs`). -/
structure ATXHeading where
  ident_whitespaces : IndentationTo 3
  leading_pounds : TokenStream
  seperate : TokenStream
  content : TokenStream
  line_ending : Option LineEnding
deriving DecidableEq, Repr

/-- `ATXHeading::parse` (`header.rs`, lines 35–65): indentation, pound
run, the rest of the physical line as raw content, optional line ending;
then the separator is stripped off the front of the content, and an
empty separator together with a missing line ending is a `Recovable`
failure. -/
def ATXHeading.parse (s : TokenStream) : PResult ATXHeading :=
  match IndentationTo.parse 3 s with
  | (.error e, s1) => (.error (Kind.ATXHeading.wrap e), s1)
  | (.ok iw, s1) =>
    match parseLeadingPounds s1 with
    | (.error e, s2) => (.error (Kind.ATXHeading.wrap e), s2)
    | (.ok pounds, s2) =>
      let (content0, s3) := takeRun (fun c => c != '\r' && c != '\n') s2
      match optLineEnding s3 with
      | (.error e, s4) => (.error (Kind.ATXHeading.wrap e), s4)
      | (.ok le, s4) =>
        let (seperate, content) := takeRun isUnicodeWhitespace content0
        if seperate.content.isEmpty ∧ le.isNone then
          (.error (.Kind .ATXHeading .Recovable seperate.to_span), s4)
        else
          (.ok ⟨iw, pounds, seperate, content, le⟩, s4)

/-- `ATXHeading::to_span` (`header.rs`, lines 67–74): union of
indentation, pounds, content and line ending — `seperate` is skipped. -/
def ATXHeading.to_span (v : ATXHeading) : Span :=
  ((v.ident_whitespaces.to_span.union v.leading_pounds.to_span).union
    v.content.to_span).union (optLineEndingSpan v.line_ending)

/-- `IndentedNonblankLine` (`code.rs`): ≥4 columns of indentation, a
non-empty run of non-line-ending characters, optional line ending. -/
structure IndentedNonblankLine where
  identation : IndentationFrom 4
  content : TokenStream
  line_ending : Option LineEnding
deriving DecidableEq, Repr

/-- `IndentedNonblankLine::parse` (`code.rs`, lines 33–54); empty
content after the indentation is a `Recovable` failure whose span is
`input.start .. min(input.start + 2, input.end)`. -/
def IndentedNonblankLine.parse (s : TokenStream) :
    PResult IndentedNonblankLine :=
  match IndentationFrom.parse 4 s with
  | (.error e, s1) => (.error (Kind.IdentationNonblankChunk.wrap e), s1)
  | (.ok ident, s1) =>
    let (content, s2) := takeTill (fun c => c == '\r' || c == '\n') s1
    if content.content.isEmpty then
      (.error (.Kind .IdentationNonblankChunk .Recovable
        (.Range s2.start (min (s2.start + 2) (s2.start + s2.content.length)))),
       s2)
    else
      match optLineEnding s2 with
      | (.error e, s3) => (.error (Kind.IdentationNonblankChunk.wrap e), s3)
      | (.ok le, s3) => (.ok ⟨ident, content, le⟩, s3)

/-- `IndentedNonblankLine::to_span` (`code.rs`, lines 55–61). -/
def IndentedNonblankLine.to_span (v : IndentedNonblankLine) : Span :=
  (v.identation.to_span.union v.content.to_span).union
    (optLineEndingSpan v.line_ending)

/-- `IndentedBlankLine` (`code.rs`): optional whitespace and a required
line ending, errors wrapped as `IdentationNonblankChunk` (the
`map_err` attribute on the derive). -/
structure IndentedBlankLine where
  leading_whitespaces : S
  line_ending : LineEnding
deriving DecidableEq, Repr

def IndentedBlankLine.parse (s : TokenStream) : PResult IndentedBlankLine :=
  match S.parse s with
  | (.error e, s1) => (.error (Kind.IdentationNonblankChunk.wrap e), s1)
  | (.ok ws, s1) =>
    match LineEnding.parse s1 with
    | (.error e, s2) => (.error (Kind.IdentationNonblankChunk.wrap e), s2)
    | (.ok le, s2) => (.ok ⟨ws, le⟩, s2)

/-- `IdentedChunk` (`code.rs`): a non-blank or a blank line.  The
derived parse is ordered alternation with cursor restoration on
`Recovable` failure (modelled from the spec, §4.2). -/
inductive IdentedChunk where
  | NonBlank : IndentedNonblankLine → IdentedChunk
  | Blank : IndentedBlankLine → IdentedChunk
deriving DecidableEq, Repr

def IdentedChunk.parse (s : TokenStream) : PResult IdentedChunk :=
  match IndentedNonblankLine.parse s with
  | (.ok v, s1) => (.ok (.NonBlank v), s1)
  | (.error e, s1) =>
    if e.control_flow = .Fatal then (.error e, s1)
    else
      match IndentedBlankLine.parse s with
      | (.ok v, s2) => (.ok (.Blank v), s2)
      | (.error e2, s2) =>
        if e2.control_flow = .Fatal then (.error e2, s2) else (.error e2, s)

/-- Modelled from the spec: the derived repetition behind
`IndentedCodeBlock(Vec<IdentedChunk>)` — collect chunks until a
`Recovable` failure, propagating `Fatal` ones.  `fuel` makes the
recursion structural; every successful chunk consumes at least one
character, so a call with more fuel than characters is exact. -/
def parseChunks (fuel : Nat) (s : TokenStream) :
    Except MarkDownError (List IdentedChunk) × TokenStream :=
  match fuel with
  | 0 => (.ok [], s)
  | fuel + 1 =>
    match IdentedChunk.parse s with
    | (.error e, s1) =>
      if e.control_flow = .Fatal then (.error e, s1) else (.ok [], s)
    | (.ok c, s1) =>
      match parseChunks fuel s1 with
      | (.error e, s2) => (.error e, s2)
      | (.ok cs, s2) => (.ok (c :: cs), s2)

/-- `IndentedCodeBlock` (`code.rs`): the ordered chunk sequence. -/
structure IndentedCodeBlock where
  chunks : List IdentedChunk
deriving DecidableEq, Repr

def IndentedCodeBlock.parse (s : TokenStream) : PResult IndentedCodeBlock :=
  match parseChunks (s.content.length + 1) s with
  | (.error e, s1) => (.error e, s1)
  | (.ok cs, s1) => (.ok ⟨cs⟩, s1)

/-- `Fenced` (`code.rs`): a run of at least three identical fence
characters. -/
structure Fenced where
  inner : TokenStream
deriving DecidableEq, Repr

/-- `Fenced::parse` (`code.rs`, lines 113–137): one fence character via
`next_if`, then the maximal run of the same character; the whole run is
carved out of a clone with `split_off(trailing.len() + 1)` (advancing
the cursor even on the length failure), and a run shorter than 3 is a
`Recovable` failure. -/
def Fenced.parse (s : TokenStream) : PResult Fenced :=
  match s.content.head? with
  | some c0 =>
    if isFenceChar c0 then
      let s1 := s.advance 1
      let trailing := (takeRun (· == c0) s1).1
      let fence := s.split_to (trailing.content.length + 1)
      let rest := s.advance (trailing.content.length + 1)
      if fence.content.length < 3 then
        (.error (.Kind .FencedCodeBlock .Recovable fence.to_span), rest)
      else
        (.ok ⟨fence⟩, rest)
    else
      (.error (.Kind .Primitive .Recovable
        (.Range s.start (s.start + min 1 s.content.length))), s)
  | none =>
    (.error (.Kind .Primitive .Recovable (.Range s.start s.start)), s)

def Fenced.to_span (v : Fenced) : Span := v.inner.to_span

/-- `FencedCodeBlock` (`code.rs`): opening fence, body, optional closing
fence (`end` in the source; renamed `endf`, `end` being reserved). -/
structure FencedCodeBlock where
  fstart : Fenced
  body : TokenStream
  endf : Option Fenced
deriving DecidableEq, Repr

/-- `FencedCodeBlock::parse` (`code.rs`, lines 166–188).  When
`take_until` finds the opening fence string again, the closing run is
parsed and `assert_eq!(start.0.len(), end.0.len())` fires whenever the
closing run is longer than the opening fence: that panic is modelled as
`none`.  With no occurrence, the body is the remainder
(`input.split_off(0)`) and there is no closing fence. -/
def FencedCodeBlock.parse (s : TokenStream) :
    Option (PResult FencedCodeBlock) :=
  match Fenced.parse s with
  | (.error e, s1) => some (.error e, s1)
  | (.ok fstart, s1) =>
    match takeUntilTS fstart.inner.content s1 with
    | some (body, s2) =>
      match Fenced.parse s2 with
      | (.error e, s3) => some (.error e, s3)
      | (.ok fend, s3) =>
        if fstart.inner.content.length = fend.inner.content.length then
          some (.ok ⟨fstart, body, some fend⟩, s3)
        else
          none
    | none =>
      some (.ok ⟨fstart, s1, none⟩, ⟨s1.start, []⟩)

/-- Span of an optional closing fence. -/
def optFencedSpan : Option Fenced → Span
  | none => .None
  | some f => f.to_span

/-- `FencedCodeBlock::to_span` (`code.rs`, lines 190–196). -/
def FencedCodeBlock.to_span (v : FencedCodeBlock) : Span :=
  (v.fstart.to_span.union v.body.to_span).union (optFencedSpan v.endf)

end MDC

namespace Errs

/-! The `errors.rs` module of the crate (an earlier generation of the
error type, kept verbatim in the sources): `MarkDownError` with one
variant per rule plus a passthrough for `parserc::Kind`. -/

/-- Modelled from the spec: `parserc::Kind`.  The sources only exhibit
its `Syntax(name, control_flow, span)` shape (`errors.rs`, line 27);
`Prim` embeds that shape, and its methods set `Fatal` preserving the
span, as every error carries the `(Kind, ControlFlow, Span)` triple
(§7). -/
inductive Kind where
  | Prim : String → MDC.ControlFlow → MDC.Span → Kind
deriving DecidableEq, Repr

def Kind.control_flow : Kind → MDC.ControlFlow
  | .Prim _ cf _ => cf

def Kind.into_fatal : Kind → Kind
  | .Prim n _ sp => .Prim n .Fatal sp

def Kind.span : Kind → MDC.Span
  | .Prim _ _ sp => sp

/-- `MarkDownError` of `errors.rs` (lines 4–22). -/
inductive MarkDownError where
  | Kind : Errs.Kind → MarkDownError
  | LineEnding : MDC.ControlFlow → MDC.Span → MarkDownError
  | LeadingWhiteSpace : MDC.ControlFlow → MDC.Span → MarkDownError
  | LeadingPounds : MDC.ControlFlow → MDC.Span → MarkDownError
  | Escaped : MDC.ControlFlow → MDC.Span → MarkDownError
  | Entity : MDC.ControlFlow → MDC.Span → MarkDownError
  | Thematic : MDC.ControlFlow → MDC.Span → MarkDownError
  | S : MDC.ControlFlow → MDC.Span → MarkDownError
deriving DecidableEq, Repr

/-- `MarkDownError::control_flow` (`errors.rs`, lines 36–47). -/
def MarkDownError.control_flow : MarkDownError → MDC.ControlFlow
  | .Kind k => k.control_flow
  | .LineEnding cf _ => cf
  | .LeadingWhiteSpace cf _ => cf
  | .LeadingPounds cf _ => cf
  | .Escaped cf _ => cf
  | .Entity cf _ => cf
  | .Thematic cf _ => cf
  | .S cf _ => cf

/-- `MarkDownError::into_fatal` (`errors.rs`, lines 49–66), including
the `Thematic → Entity` variant switch present in the source. -/
def MarkDownError.into_fatal : MarkDownError → MarkDownError
  | .Kind k => .Kind k.into_fatal
  | .S _ sp => .S .Fatal sp
  | .LineEnding _ sp => .LineEnding .Fatal sp
  | .LeadingWhiteSpace _ sp => .LeadingWhiteSpace .Fatal sp
  | .LeadingPounds _ sp => .LeadingPounds .Fatal sp
  | .Escaped _ sp => .Escaped .Fatal sp
  | .Entity _ sp => .Entity .Fatal sp
  | .Thematic _ sp => .Entity .Fatal sp

/-- `MarkDownError::span` (`errors.rs`, lines 68–79). -/
def MarkDownError.span : MarkDownError → MDC.Span
  | .Kind k => k.span
  | .S _ sp => sp
  | .LineEnding _ sp => sp
  | .LeadingWhiteSpace _ sp => sp
  | .LeadingPounds _ sp => sp
  | .Escaped _ sp => sp
  | .Entity _ sp => sp
  | .Thematic _ sp => sp

end Errs

namespace MDC

/-! Helper projections and small lemmas used by several theorems. -/

/-- Kind and control flow of an error result, `none` on success. -/
def errInfo {α : Type} : Except MarkDownError α → Option (Kind × ControlFlow)
  | .error e => some (e.kind, e.control_flow)
  | .ok _ => none

instance {ε α : Type} [DecidableEq ε] [DecidableEq α] :
    DecidableEq (Except ε α) := fun a b =>
  match a, b with
  | .ok x, .ok y =>
    if h : x = y then .isTrue (by rw [h])
    else .isFalse (by intro hc; cases hc; exact h rfl)
  | .ok _, .error _ => .isFalse (fun hc => Except.noConfusion hc)
  | .error _, .ok _ => .isFalse (fun hc => Except.noConfusion hc)
  | .error x, .error y =>
    if h : x = y then .isTrue (by rw [h])
    else .isFalse (by intro hc; cases hc; exact h rfl)

@[simp] theorem ts_start (a : Nat) (l : List Char) :
    (TokenStream.mk a l).start = a := rfl

@[simp] theorem ts_content (a : Nat) (l : List Char) :
    (TokenStream.mk a l).content = l := rfl

@[simp] theorem span_union_none_left (s : Span) : Span.union .None s = s := by
  cases s <;> rfl

@[simp] theorem span_union_none_right (s : Span) : Span.union s .None = s := by
  cases s <;> rfl

@[simp] theorem span_union_range (a b c d : Nat) :
    Span.union (.Range a b) (.Range c d) = .Range (min a c) (max b d) := rfl

theorem takeWhile_length_add_dropWhile_length (p : Char → Bool)
    (l : List Char) :
    (l.takeWhile p).length + (l.dropWhile p).length = l.length := by
  have h := congrArg List.length
    (List.takeWhile_append_dropWhile (p := p) (l := l))
  rw [List.length_append] at h
  exact h

theorem dropWhile_head_not (p : Char → Bool) (l : List Char) (c : Char)
    (h : (l.dropWhile p).head? = some c) : p c = false := by
  induction l with
  | nil => simp at h
  | cons a t ih =>
    by_cases hpa : p a
    · rw [List.dropWhile_cons_of_pos hpa] at h; exact ih h
    · rw [List.dropWhile_cons_of_neg hpa] at h
      simp at h
      subst h
      simpa using hpa

end MDC

namespace MDC

/-- C10: `into_fatal` always yields a `Fatal` error and preserves the
span (the `Thematic` arm switches the variant to `Entity`, but control
flow and span behave as claimed). -/
theorem errs_into_fatal_flow_and_span (e : Errs.MarkDownError) :
    (e.into_fatal).control_flow = .Fatal ∧ (e.into_fatal).span = e.span := by
  cases e with
  | Kind k =>
    cases k
    exact ⟨rfl, rfl⟩
  | LineEnding cf sp => exact ⟨rfl, rfl⟩
  | LeadingWhiteSpace cf sp => exact ⟨rfl, rfl⟩
  | LeadingPounds cf sp => exact ⟨rfl, rfl⟩
  | Escaped cf sp => exact ⟨rfl, rfl⟩
  | Entity cf sp => exact ⟨rfl, rfl⟩
  | Thematic cf sp => exact ⟨rfl, rfl⟩
  | S cf sp => exact ⟨rfl, rfl⟩

/-- C1: `FencedCodeBlock::parse` does not return a result for every
input — on `"~~~\n~~~~"` the closing tilde run is longer than the
opening fence and `assert_eq!(start.0.len(), end.0.len())` panics
(modelled as `none`). -/
theorem fencedCodeBlock_parse_panics :
    FencedCodeBlock.parse ⟨0, "~~~\n~~~~".toList⟩ = none := by decide

/-- C7: on `"~~~~\naaa\n~~~\n"` the fenced block is the opening
four-tilde fence, the body is the whole remainder `"\naaa\n~~~\n"`, and
the closing fence is absent. -/
theorem fencedCodeBlock_unterminated :
    FencedCodeBlock.parse ⟨0, "~~~~\naaa\n~~~\n".toList⟩ =
      some (.ok ⟨⟨⟨0, "~~~~".toList⟩⟩, ⟨4, "\naaa\n~~~\n".toList⟩, none⟩,
            ⟨4, []⟩) := by decide

/-- C5: ATX headings with 1–6 pounds and a following space succeed;
`"#######"` fails, and `"#foo"` (no separator, no line ending) fails
with a `Recovable` error. -/
theorem atxHeading_bounds :
    (ATXHeading.parse ⟨0, "# ".toList⟩).1.isOk = true
    ∧ (ATXHeading.parse ⟨0, "## ".toList⟩).1.isOk = true
    ∧ (ATXHeading.parse ⟨0, "### ".toList⟩).1.isOk = true
    ∧ (ATXHeading.parse ⟨0, "#### ".toList⟩).1.isOk = true
    ∧ (ATXHeading.parse ⟨0, "##### ".toList⟩).1.isOk = true
    ∧ (ATXHeading.parse ⟨0, "###### ".toList⟩).1.isOk = true
    ∧ (ATXHeading.parse ⟨0, "#######".toList⟩).1.isOk = false
    ∧ errInfo (ATXHeading.parse ⟨0, "#foo".toList⟩).1 =
        some (.ATXHeading, .Recovable) := by decide

theorem findSemi (pre : List Char) (h : ∀ c ∈ pre, c ≠ ';')
    (X : List Char) :
    List.findIdx? (fun c => c == ';') (pre ++ ';' :: X) = some pre.length := by
  induction pre with
  | nil => simp [List.findIdx?_cons]
  | cons a t ih =>
    have ha : ¬((a == ';') = true) := by
      simpa using h a (by simp)
    have ht : ∀ c ∈ t, c ≠ ';' := fun c hc => h c (by simp [hc])
    simp only [List.cons_append, List.findIdx?_cons, List.findIdx?_succ]
    rw [if_neg ha, ih ht]
    rfl

/-- C6: entity bounds — `"&amp;"` parses to the full slice; `"&amp"`
fails Fatal; a leading `&` followed by at least 100 further characters
with no `;` among the first 101 scanned fails Fatal with the capped span
and an unmoved cursor; `"&abc;"` (well-formed shape, unknown name) fails
Fatal; and with a leading `&` every failure is Fatal. -/
theorem entity_bounds :
    (Entity.parse ⟨0, "&amp;".toList⟩ =
      (.ok ⟨⟨0, "&amp;".toList⟩⟩, ⟨5, []⟩))
    ∧ ((Entity.parse ⟨0, "&amp".toList⟩).1 =
        .error (.Kind .Entity .Fatal (.Range 0 4)))
    ∧ (∀ s : TokenStream, s.content.head? = some '&' →
        101 ≤ s.content.length →
        (∀ c ∈ s.content.take 101, c ≠ ';') →
        Entity.parse s =
          (.error (.Kind .Entity .Fatal (.Range s.start (s.start + 100))), s))
    ∧ ((Entity.parse ⟨0, "&abc;".toList⟩).1 =
        .error (.Kind .Entity .Fatal (.Range 0 5)))
    ∧ (∀ (s : TokenStream) (e : MarkDownError) (rest : TokenStream),
        s.content.head? = some '&' →
        Entity.parse s = (.error e, rest) → e.control_flow = .Fatal) := by
  refine ⟨by decide, by decide, ?_, by decide, ?_⟩
  · intro s hamp hlen hnone
    have hfind :
        List.findIdx? (fun c => c == ';')
          (s.content.take (MAX_ENTITY_LEN + 1)) = none := by
      rw [List.findIdx?_eq_none_iff]
      intro c hc
      have := hnone c (by simpa [MAX_ENTITY_LEN] using hc)
      simpa using this
    have hmin : min MAX_ENTITY_LEN s.content.length = 100 := by
      simp only [MAX_ENTITY_LEN]
      omega
    simp only [Entity.parse, if_pos hamp, hfind, hmin]
  · intro s e rest hamp hp
    simp only [Entity.parse, if_pos hamp] at hp
    split at hp
    · split at hp
      · exact absurd hp (by simp)
      · rw [Prod.mk.injEq] at hp
        obtain ⟨he, -⟩ := hp
        cases he
        rfl
    · rw [Prod.mk.injEq] at hp
      obtain ⟨he, -⟩ := hp
      cases he
      rfl

/-- Witness for C6: the general conjuncts applied at `&` followed by
one hundred `a` characters, and at `"&abc;"`. -/
theorem entity_bounds_witness :
    (Entity.parse ⟨0, '&' :: List.replicate 100 'a'⟩ =
      (.error (.Kind .Entity .Fatal (.Range 0 100)),
       ⟨0, '&' :: List.replicate 100 'a'⟩))
    ∧ (MarkDownError.Kind .Entity .Fatal (.Range 0 5)).control_flow
        = .Fatal := by
  constructor
  · refine entity_bounds.2.2.1 ⟨0, '&' :: List.replicate 100 'a'⟩ rfl
      (by simp) ?_
    intro c hc
    have hm : c ∈ '&' :: List.replicate 100 'a' := List.mem_of_mem_take hc
    rcases List.mem_cons.mp hm with h1 | h1
    · subst h1; decide
    · rw [List.eq_of_mem_replicate h1]; decide
  · exact entity_bounds.2.2.2.2 ⟨0, "&abc;".toList⟩ _ ⟨5, []⟩ rfl (by decide)

/-- C9: cursor discipline of `Entity::parse` — with no leading `&` the
cursor is untouched (the probe runs on a clone); a well-formed `&…;`
shape failing the dictionary lookup returns Fatal with the cursor
already advanced past the whole `&…;` span. -/
theorem entity_cursor :
    (∀ s : TokenStream, s.content.head? ≠ some '&' →
      Entity.parse s =
        (.error (.Kind .Entity .Recovable
          (.Range s.start (s.start + min 1 s.content.length))), s))
    ∧ (∀ (st : Nat) (name rest : List Char),
        ';' ∉ name → name.length ≤ 99 →
        ('&' :: (name ++ [';'])) ∉ NAMES →
        Entity.parse ⟨st, '&' :: (name ++ ';' :: rest)⟩ =
          (.error (.Kind .Entity .Fatal
            (.Range st (st + (name.length + 2)))),
           ⟨st + (name.length + 2), rest⟩)) := by
  constructor
  · intro s h
    simp only [Entity.parse, if_neg h]
  · intro st name rest hsemi hlen hmem
    have hpre : ∀ c ∈ '&' :: name, c ≠ ';' := by
      intro c hc
      rcases List.mem_cons.mp hc with h1 | h1
      · subst h1; decide
      · exact fun he => hsemi (he ▸ h1)
    have htake :
        (('&' :: (name ++ ';' :: rest)).take (MAX_ENTITY_LEN + 1)) =
          ('&' :: name) ++ ';' :: rest.take (99 - name.length) := by
      have h100 : 100 - name.length = (99 - name.length) + 1 := by omega
      simp only [MAX_ENTITY_LEN]
      rw [List.take_succ_cons, List.take_append_eq_append_take,
        List.take_of_length_le (by omega), h100, List.take_succ_cons,
        List.cons_append]
    have hfind :
        List.findIdx? (fun c => c == ';')
          (('&' :: (name ++ ';' :: rest)).take (MAX_ENTITY_LEN + 1)) =
          some (name.length + 1) := by
      rw [htake, findSemi ('&' :: name) hpre]
      rfl
    have hsplit : '&' :: (name ++ ';' :: rest) =
        ('&' :: (name ++ [';'])) ++ rest := by simp
    have hctake : ('&' :: (name ++ ';' :: rest)).take (name.length + 1 + 1) =
        '&' :: (name ++ [';']) := by
      rw [hsplit]
      exact List.take_left' (by simp)
    have hcdrop : ('&' :: (name ++ ';' :: rest)).drop (name.length + 1 + 1) =
        rest := by
      rw [hsplit]
      exact List.drop_left' (by simp)
    have hlen2 : ('&' :: (name ++ [';'])).length = name.length + 2 := by
      rw [List.length_cons, List.length_append, List.length_singleton]
    have harith : name.length + 1 + 1 = name.length + 2 := rfl
    simp only [Entity.parse, List.head?_cons, if_pos rfl, hfind,
      TokenStream.split_to, TokenStream.advance, hctake, hcdrop, if_true]
    rw [if_neg hmem]
    simp only [TokenStream.to_span, hlen2, harith]

theorem indentationFrom_parse_ok {N : Nat} {s : TokenStream}
    {v : IndentationFrom N} {rest : TokenStream}
    (h : IndentationFrom.parse N s = (.ok v, rest)) :
    N ≤ (s.content.takeWhile isMdWs).length ∧
    v = ⟨⟨s.start, s.content.takeWhile isMdWs⟩⟩ ∧
    rest = ⟨s.start + (s.content.takeWhile isMdWs).length,
            s.content.dropWhile isMdWs⟩ := by
  simp only [IndentationFrom.parse, takeRun] at h
  split at h
  · exact absurd h (by simp)
  · next hlt =>
    rw [Prod.mk.injEq] at h
    obtain ⟨h1, h2⟩ := h
    cases h1
    exact ⟨by omega, rfl, h2.symm⟩

theorem indentationTo_parse_ok {N : Nat} {s : TokenStream}
    {v : IndentationTo N} {rest : TokenStream}
    (h : IndentationTo.parse N s = (.ok v, rest)) :
    (s.content.takeWhile isMdWs).length ≤ N ∧
    v = ⟨⟨s.start, s.content.takeWhile isMdWs⟩⟩ ∧
    rest = ⟨s.start + (s.content.takeWhile isMdWs).length,
            s.content.dropWhile isMdWs⟩ := by
  simp only [IndentationTo.parse, takeRun] at h
  split at h
  · exact absurd h (by simp)
  · next hlt =>
    rw [Prod.mk.injEq] at h
    obtain ⟨h1, h2⟩ := h
    cases h1
    exact ⟨by omega, rfl, h2.symm⟩

theorem optLineEnding_shape (s : TokenStream) :
    ∃ le s1, optLineEnding s = (.ok le, s1) ∧
      s1.start = s.start + lineEndingLen le ∧
      s1.start + s1.content.length = s.start + s.content.length := by
  by_cases h1 : s.content.head? = some '\n'
  · refine ⟨some (.LF ⟨s.start, ['\n']⟩), s.advance 1, ?_, rfl, ?_⟩
    · simp only [optLineEnding, LineEnding.parse, if_pos h1]
    · have : 1 ≤ s.content.length := by
        cases hc : s.content with
        | nil => rw [hc] at h1; simp at h1
        | cons a t => simp [hc]
      simp only [TokenStream.advance, List.length_drop]
      omega
  · by_cases h2 : s.content.take 2 = ['\r', '\n']
    · refine ⟨some (.CrLf ⟨s.start, ['\r', '\n']⟩), s.advance 2, ?_, rfl, ?_⟩
      · simp only [optLineEnding, LineEnding.parse, if_neg h1, if_pos h2]
      · have : 2 ≤ s.content.length := by
          have := congrArg List.length h2
          simp only [List.length_take, List.length_cons, List.length_nil]
            at this
          omega
        simp only [TokenStream.advance, List.length_drop]
        omega
    · refine ⟨none, s, ?_, by simp [lineEndingLen], rfl⟩
      simp only [optLineEnding, LineEnding.parse, if_neg h1, if_neg h2]
      rfl

theorem optLineEnding_ok {s : TokenStream} {le : Option LineEnding}
    {s1 : TokenStream} (h : optLineEnding s = (.ok le, s1)) :
    s1.start = s.start + lineEndingLen le ∧
    s1.start + s1.content.length = s.start + s.content.length := by
  obtain ⟨le', s1', he, h1, h2⟩ := optLineEnding_shape s
  rw [he] at h
  rw [Prod.mk.injEq] at h
  obtain ⟨ha, hb⟩ := h
  cases ha
  cases hb
  exact ⟨h1, h2⟩

theorem optLineEnding_no_error {s : TokenStream} {e : MarkDownError}
    {s1 : TokenStream} : optLineEnding s ≠ (.error e, s1) := by
  obtain ⟨le', s1', he, -, -⟩ := optLineEnding_shape s
  rw [he]
  intro hc
  rw [Prod.mk.injEq] at hc
  exact absurd hc.1 (by simp)

/-- Character classes (values) of every delimiter run in the list, in
order. -/
def PunctuatedTB.classes (p : PunctuatedTB) : List Nat :=
  p.pairs.map (fun q => q.1.value) ++
    (match p.tail with | some t => [t.value] | none => [])

/-- The class established by the first delimiter run. -/
def PunctuatedTB.firstClass (p : PunctuatedTB) : Nat :=
  p.classes.head?.getD 0

/-- Total count of delimiter characters, ignoring the interleaved
whitespace. -/
def PunctuatedTB.totalLen (p : PunctuatedTB) : Nat :=
  (p.pairs.map (fun q => q.1.len)).sum +
    (match p.tail with | some t => t.len | none => 0)

theorem indentationTo_parse_err {N : Nat} {s : TokenStream}
    {e : MarkDownError} {rest : TokenStream}
    (h : IndentationTo.parse N s = (.error e, rest)) :
    e.control_flow = .Recovable := by
  simp only [IndentationTo.parse, takeRun] at h
  split at h
  · rw [Prod.mk.injEq] at h
    obtain ⟨h1, -⟩ := h
    cases h1
    rfl
  · exact absurd h (by simp)

theorem checkPairs_ok {id : Nat} {ps : List (ThematicChars × Identation)}
    {n : Nat} (h : checkPairs id ps = .ok n) :
    (∀ q ∈ ps, q.1.value = id) ∧ n = (ps.map (fun q => q.1.len)).sum := by
  induction ps generalizing n with
  | nil =>
    simp only [checkPairs] at h
    cases h
    exact ⟨by simp, by simp⟩
  | cons q t ih =>
    obtain ⟨tc, pc⟩ := q
    simp only [checkPairs] at h
    split at h
    · exact absurd h (by simp)
    · next hv =>
      cases hck : checkPairs id t with
      | error t' => rw [hck] at h; exact absurd h (by simp [Except.map])
      | ok m =>
        rw [hck] at h
        simp only [Except.map] at h
        cases h
        obtain ⟨hall, hm⟩ := ih hck
        refine ⟨?_, by simp [hm]⟩
        intro p hp
        rcases List.mem_cons.mp hp with h1 | h1
        · subst h1
          simpa using hv
        · exact hall p h1

theorem finishBreaks_ok {iw : IndentationTo 3} {breaks : PunctuatedTB}
    {len : Nat} {s2 : TokenStream} {tb : ThematicBreaks} {s' : TokenStream}
    (h : finishBreaks iw breaks len s2 = (.ok tb, s')) :
    3 ≤ len ∧ ∃ le, optLineEnding s2 = (.ok le, s') ∧
      tb = ⟨iw, breaks, le⟩ ∧ (le = none → s'.content = []) := by
  simp only [finishBreaks] at h
  split at h
  · exact absurd h (by simp)
  · next h3 =>
    split at h
    · exact absurd h (by simp)
    · next le s3 hle =>
      split at h
      · exact absurd h (by simp)
      · next hguard =>
        rw [Prod.mk.injEq] at h
        obtain ⟨h1, h2⟩ := h
        cases h1
        cases h2
        refine ⟨by omega, le, hle, rfl, ?_⟩
        intro hn
        subst hn
        simpa using hguard

theorem finishBreaks_err {iw : IndentationTo 3} {breaks : PunctuatedTB}
    {len : Nat} {s2 : TokenStream} {e : MarkDownError} {s' : TokenStream}
    (h : finishBreaks iw breaks len s2 = (.error e, s')) :
    e.control_flow = .Recovable := by
  simp only [finishBreaks] at h
  split at h
  · rw [Prod.mk.injEq] at h
    obtain ⟨h1, -⟩ := h
    cases h1
    rfl
  · split at h
    · next e' s3 hle => exact absurd hle optLineEnding_no_error
    · split at h
      · rw [Prod.mk.injEq] at h
        obtain ⟨h1, -⟩ := h
        cases h1
        rfl
      · exact absurd h (by simp)

/-- C4: validity of `ThematicBreaks::parse` — every successful parse
has all delimiter runs in the class fixed by the first one, a total
delimiter-character count of at least 3, and (when no line ending was
taken) an exhausted line; every failure is `Recovable`; concretely,
`"- * -"` fails, `"- - -"` succeeds and `"- -"` fails. -/
theorem thematicBreaks_validity :
    (∀ (s : TokenStream) (tb : ThematicBreaks) (rest : TokenStream),
        ThematicBreaks.parse s = (.ok tb, rest) →
        (∀ v ∈ tb.breaks.classes, v = tb.breaks.firstClass)
        ∧ 3 ≤ tb.breaks.totalLen
        ∧ (tb.line_ending = none → rest.content = []))
    ∧ (∀ (s : TokenStream) (e : MarkDownError) (rest : TokenStream),
        ThematicBreaks.parse s = (.error e, rest) →
        e.control_flow = .Recovable)
    ∧ errInfo (ThematicBreaks.parse ⟨0, "- * -".toList⟩).1 =
        some (.Thematic, .Recovable)
    ∧ (ThematicBreaks.parse ⟨0, "- - -".toList⟩).1.isOk = true
    ∧ errInfo (ThematicBreaks.parse ⟨0, "- -".toList⟩).1 =
        some (.Thematic, .Recovable) := by
  refine ⟨?_, ?_, by decide, by decide, by decide⟩
  · intro s tb rest h
    simp only [ThematicBreaks.parse] at h
    split at h
    · exact absurd h (by simp)
    · rename_i iw s1 hto
      split at h
      · -- pairs empty
        rename_i hhead
        have hpairs : (punctuatedBreaks (s1.content.length + 1)
            s1).1.pairs = [] := List.head?_eq_none_iff.mp hhead
        split at h
        · -- tail present
          rename_i tail htail
          split at h
          · exact absurd h (by simp)
          · rename_i h3
            split at h
            · exact absurd h (by simp)
            · rename_i le s3 hle
              split at h
              · exact absurd h (by simp)
              · rename_i hguard
                rw [Prod.mk.injEq] at h
                obtain ⟨h1, h2⟩ := h
                cases h1
                cases h2
                refine ⟨?_, ?_, ?_⟩
                · simp [PunctuatedTB.classes, PunctuatedTB.firstClass,
                    hpairs, htail]
                · simp only [PunctuatedTB.totalLen, hpairs, htail,
                    List.map_nil, List.sum_nil]
                  omega
                · intro hn
                  rw [show (⟨iw, punctuatedBreaks (s1.content.length + 1)
                      s1 |>.1, le⟩ : ThematicBreaks).line_ending = le
                    from rfl] at hn
                  subst hn
                  simpa using hguard
        · exact absurd h (by simp)
      · -- pairs nonempty
        rename_i first snd hhead
        have hcons : (first, snd) ::
            (punctuatedBreaks (s1.content.length + 1) s1).1.pairs.tail =
            (punctuatedBreaks (s1.content.length + 1) s1).1.pairs :=
          List.cons_head?_tail hhead
        have hfc : (punctuatedBreaks (s1.content.length + 1)
            s1).1.firstClass = first.value := by
          unfold PunctuatedTB.firstClass PunctuatedTB.classes
          rw [← hcons]
          rfl
        split at h
        · exact absurd h (by simp)
        · rename_i len0 hck
          obtain ⟨hall, hsum⟩ := checkPairs_ok hck
          split at h
          · -- tail present
            rename_i tail htail
            split at h
            · exact absurd h (by simp)
            · rename_i hvt
              have hvt' : tail.value = first.value := by
                by_contra hc
                exact hvt hc
              obtain ⟨h3, le, hle, htb, hend⟩ := finishBreaks_ok h
              subst htb
              refine ⟨?_, ?_, ?_⟩
              · intro v hv
                rw [hfc]
                simp only [PunctuatedTB.classes, htail,
                  List.mem_append] at hv
                rcases hv with hv | hv
                · obtain ⟨q, hq, hqv⟩ := List.mem_map.mp hv
                  rw [← hqv]
                  exact hall q hq
                · simp at hv
                  rw [hv, hvt']
              · simp only [PunctuatedTB.totalLen, htail]
                omega
              · exact fun hn => hend hn
          · -- no tail
            rename_i htail
            obtain ⟨h3, le, hle, htb, hend⟩ := finishBreaks_ok h
            subst htb
            refine ⟨?_, ?_, ?_⟩
            · intro v hv
              rw [hfc]
              simp only [PunctuatedTB.classes, htail,
                List.mem_append] at hv
              rcases hv with hv | hv
              · obtain ⟨q, hq, hqv⟩ := List.mem_map.mp hv
                rw [← hqv]
                exact hall q hq
              · simp at hv
            · simp only [PunctuatedTB.totalLen, htail]
              omega
            · exact fun hn => hend hn
  · intro s e rest h
    simp only [ThematicBreaks.parse] at h
    split at h
    · next e' s1 hto =>
      rw [Prod.mk.injEq] at h
      obtain ⟨h1, -⟩ := h
      cases h1
      exact indentationTo_parse_err hto
    · next iw s1 hto =>
      split at h
      · split at h
        · split at h
          · rw [Prod.mk.injEq] at h
            obtain ⟨h1, -⟩ := h
            cases h1
            rfl
          · split at h
            · next e' s3 hle => exact absurd hle optLineEnding_no_error
            · split at h
              · rw [Prod.mk.injEq] at h
                obtain ⟨h1, -⟩ := h
                cases h1
                rfl
              · exact absurd h (by simp)
        · rw [Prod.mk.injEq] at h
          obtain ⟨h1, -⟩ := h
          cases h1
          rfl
      · split at h
        · rw [Prod.mk.injEq] at h
          obtain ⟨h1, -⟩ := h
          cases h1
          rfl
        · split at h
          · split at h
            · rw [Prod.mk.injEq] at h
              obtain ⟨h1, -⟩ := h
              cases h1
              rfl
            · exact finishBreaks_err h
          · exact finishBreaks_err h

theorem span_union_chain {a b c : Nat} (h1 : a ≤ b) (h2 : b ≤ c) :
    Span.union (.Range a b) (.Range b c) = .Range a c := by
  rw [span_union_range, Nat.min_eq_left h1, Nat.max_eq_right h2]

theorem takeRun_head_pos {p : Char → Bool} {s : TokenStream} {c : Char}
    (hh : s.content.head? = some c) (hp : p c = true) :
    1 ≤ (s.content.takeWhile p).length := by
  cases hc : s.content with
  | nil => rw [hc] at hh; simp at hh
  | cons a t =>
    rw [hc] at hh
    simp only [List.head?_cons, Option.some.injEq] at hh
    subst hh
    rw [List.takeWhile_cons_of_pos hp]
    simp

theorem thematicChars_parse_ok {s : TokenStream} {t : ThematicChars}
    {s1 : TokenStream} (h : ThematicChars.parse s = (.ok t, s1)) :
    t.to_span = Span.Range s.start s1.start ∧ s.start < s1.start ∧
    s1.start + s1.content.length = s.start + s.content.length := by
  simp only [ThematicChars.parse, takeRun] at h
  split at h
  · rename_i hh
    rw [Prod.mk.injEq] at h
    obtain ⟨h1, h2⟩ := h
    cases h1
    subst h2
    refine ⟨rfl, ?_, ?_⟩
    · have hpos := takeRun_head_pos (p := (· == '*')) hh (by decide)
      show s.start < s.start + (s.content.takeWhile (· == '*')).length
      omega
    · have hc := takeWhile_length_add_dropWhile_length (· == '*') s.content
      show s.start + (s.content.takeWhile (· == '*')).length +
        (s.content.dropWhile (· == '*')).length = s.start + s.content.length
      omega
  · rename_i hh
    rw [Prod.mk.injEq] at h
    obtain ⟨h1, h2⟩ := h
    cases h1
    subst h2
    refine ⟨rfl, ?_, ?_⟩
    · have hpos := takeRun_head_pos (p := (· == '_')) hh (by decide)
      show s.start < s.start + (s.content.takeWhile (· == '_')).length
      omega
    · have hc := takeWhile_length_add_dropWhile_length (· == '_') s.content
      show s.start + (s.content.takeWhile (· == '_')).length +
        (s.content.dropWhile (· == '_')).length = s.start + s.content.length
      omega
  · rename_i hh
    rw [Prod.mk.injEq] at h
    obtain ⟨h1, h2⟩ := h
    cases h1
    subst h2
    refine ⟨rfl, ?_, ?_⟩
    · have hpos := takeRun_head_pos (p := (· == '-')) hh (by decide)
      show s.start < s.start + (s.content.takeWhile (· == '-')).length
      omega
    · have hc := takeWhile_length_add_dropWhile_length (· == '-') s.content
      show s.start + (s.content.takeWhile (· == '-')).length +
        (s.content.dropWhile (· == '-')).length = s.start + s.content.length
      omega
  · exact absurd h (by simp)

theorem identation_parse_ok {s : TokenStream} {p : Identation}
    {s1 : TokenStream} (h : Identation.parse s = (.ok p, s1)) :
    p.to_span = Span.Range s.start s1.start ∧ s.start ≤ s1.start ∧
    s1.start + s1.content.length = s.start + s.content.length := by
  simp only [Identation.parse, takeRun] at h
  split at h
  · exact absurd h (by simp)
  · rw [Prod.mk.injEq] at h
    obtain ⟨h1, h2⟩ := h
    cases h1
    subst h2
    refine ⟨rfl, by simp, ?_⟩
    have hc := takeWhile_length_add_dropWhile_length isMdWs s.content
    show s.start + (s.content.takeWhile isMdWs).length +
      (s.content.dropWhile isMdWs).length = s.start + s.content.length
    omega

theorem parseLeadingPounds_ok {s : TokenStream} {run : TokenStream}
    {s1 : TokenStream} (h : parseLeadingPounds s = (.ok run, s1)) :
    run = ⟨s.start, s.content.takeWhile (· == '#')⟩ ∧
    1 ≤ (s.content.takeWhile (· == '#')).length ∧
    s1 = ⟨s.start + (s.content.takeWhile (· == '#')).length,
          s.content.dropWhile (· == '#')⟩ := by
  simp only [parseLeadingPounds, takeRun] at h
  split at h
  · rename_i hb
    rw [Prod.mk.injEq] at h
    obtain ⟨h1, h2⟩ := h
    cases h1
    exact ⟨rfl, hb.1, h2.symm⟩
  · exact absurd h (by simp)

theorem firstOcc_le_length {pat l : List Char} {i : Nat}
    (h : firstOcc pat l = some i) : i ≤ l.length := by
  induction l generalizing i with
  | nil =>
    simp only [firstOcc] at h
    split at h
    · cases h; simp
    · exact absurd h (by simp)
  | cons c cs ih =>
    simp only [firstOcc] at h
    split at h
    · cases h; simp
    · rw [Option.map_eq_some'] at h
      obtain ⟨j, hj, rfl⟩ := h
      have := ih hj
      simp only [List.length_cons]
      omega

theorem fenced_parse_ok {s : TokenStream} {f : Fenced} {s1 : TokenStream}
    (h : Fenced.parse s = (.ok f, s1)) :
    ∃ k, 3 ≤ k ∧ k ≤ s.content.length ∧
      f.inner = ⟨s.start, s.content.take k⟩ ∧
      s1 = ⟨s.start + k, s.content.drop k⟩ := by
  simp only [Fenced.parse] at h
  split at h
  · rename_i c0 hh
    split at h
    · rename_i hfc
      simp only [takeRun, TokenStream.advance, TokenStream.split_to] at h
      split at h
      · exact absurd h (by simp)
      · rename_i hlen
        rw [Prod.mk.injEq] at h
        obtain ⟨h1, h2⟩ := h
        cases h1
        refine ⟨((s.content.drop 1).takeWhile (· == c0)).length + 1,
          ?_, ?_, rfl, h2.symm⟩
        · rw [List.length_take] at hlen
          omega
        · have hle := takeWhile_length_add_dropWhile_length (· == c0)
            (s.content.drop 1)
          rw [List.length_drop] at hle
          have hpos : 1 ≤ s.content.length := by
            cases hc : s.content with
            | nil => rw [hc] at hh; simp at hh
            | cons a t => simp [hc]
          omega
    · exact absurd h (by simp)
  · exact absurd h (by simp)

theorem punctuatedBreaks_span (fuel : Nat) :
    ∀ (s : TokenStream) (p : PunctuatedTB) (s' : TokenStream),
      s.content.length < fuel →
      punctuatedBreaks fuel s = (p, s') →
      (p = ⟨[], none⟩ ∧ s' = s) ∨
      (p.to_span = Span.Range s.start s'.start ∧ s.start ≤ s'.start ∧
       s'.start + s'.content.length = s.start + s.content.length) := by
  induction fuel with
  | zero => intro s p s' hf; omega
  | succ fuel ih =>
    intro s p s' hf h
    simp only [punctuatedBreaks] at h
    split at h
    · rw [Prod.mk.injEq] at h
      obtain ⟨h1, h2⟩ := h
      exact .inl ⟨h1.symm, h2.symm⟩
    · rename_i t s1 ht
      obtain ⟨htsp, htlt, htcons⟩ := thematicChars_parse_ok ht
      split at h
      · rename_i e1 s1' hi
        rw [Prod.mk.injEq] at h
        obtain ⟨h1, h2⟩ := h
        subst h1
        subst h2
        right
        refine ⟨?_, by omega, by omega⟩
        simpa [PunctuatedTB.to_span] using htsp
      · rename_i pn s2 hpn
        obtain ⟨hpsp, hple, hpcons⟩ := identation_parse_ok hpn
        have hs2fuel : s2.content.length < fuel := by omega
        have hrec := ih s2 (punctuatedBreaks fuel s2).1
          (punctuatedBreaks fuel s2).2 hs2fuel rfl
        rw [Prod.mk.injEq] at h
        obtain ⟨h1, h2⟩ := h
        subst h1
        subst h2
        right
        rcases hrec with ⟨hp1, hp2⟩ | ⟨hsp, hle2, hcons2⟩
        · rw [hp1, hp2]
          refine ⟨?_, by omega, by omega⟩
          show Span.union (Span.union t.to_span pn.to_span)
            (PunctuatedTB.to_span ⟨[], none⟩) = _
          rw [htsp, hpsp, span_union_chain (by omega) hple]
          simp [PunctuatedTB.to_span, pairsSpan]
        · refine ⟨?_, by omega, by omega⟩
          show Span.union (Span.union t.to_span pn.to_span)
            (PunctuatedTB.to_span ⟨(punctuatedBreaks fuel s2).1.pairs,
              (punctuatedBreaks fuel s2).1.tail⟩) = _
          rw [show (⟨(punctuatedBreaks fuel s2).1.pairs,
              (punctuatedBreaks fuel s2).1.tail⟩ : PunctuatedTB) =
              (punctuatedBreaks fuel s2).1 from rfl]
          rw [htsp, hpsp, hsp, span_union_chain (by omega) hple,
            span_union_chain (by omega) (by omega)]

theorem optLineEnding_cases {s : TokenStream} {le : Option LineEnding}
    {s1 : TokenStream} (h : optLineEnding s = (.ok le, s1)) :
    (le = none ∧ s1 = s) ∨
    (optLineEndingSpan le = .Range s.start s1.start ∧ s.start < s1.start ∧
     s1.start + s1.content.length = s.start + s.content.length) := by
  by_cases h1 : s.content.head? = some '\n'
  · simp only [optLineEnding, LineEnding.parse, if_pos h1] at h
    rw [Prod.mk.injEq] at h
    obtain ⟨ha, hb⟩ := h
    cases ha
    subst hb
    right
    have hp : 1 ≤ s.content.length := by
      cases hc : s.content with
      | nil => rw [hc] at h1; simp at h1
      | cons a t => simp [hc]
    refine ⟨rfl, by simp [TokenStream.advance], ?_⟩
    simp only [TokenStream.advance, List.length_drop]
    omega
  · by_cases h2 : s.content.take 2 = ['\r', '\n']
    · simp only [optLineEnding, LineEnding.parse, if_neg h1, if_pos h2] at h
      rw [Prod.mk.injEq] at h
      obtain ⟨ha, hb⟩ := h
      cases ha
      subst hb
      right
      have hp : 2 ≤ s.content.length := by
        have := congrArg List.length h2
        simp only [List.length_take, List.length_cons, List.length_nil] at this
        omega
      refine ⟨rfl, by simp [TokenStream.advance], ?_⟩
      simp only [TokenStream.advance, List.length_drop]
      omega
    · simp only [optLineEnding, LineEnding.parse, if_neg h1, if_neg h2] at h
      rw [if_neg (by simp [MarkDownError.control_flow])] at h
      rw [Prod.mk.injEq] at h
      obtain ⟨ha, hb⟩ := h
      cases ha
      exact .inl ⟨rfl, hb.symm⟩

theorem nonblank_line_span {s : TokenStream} {nb : IndentedNonblankLine}
    {rest : TokenStream} (h : IndentedNonblankLine.parse s = (.ok nb, rest)) :
    nb.to_span =
      Span.Range s.start
        (s.start + (s.content.length - rest.content.length)) := by
  simp only [IndentedNonblankLine.parse] at h
  split at h
  · exact absurd h (by simp)
  · rename_i v s1 hfrom
    obtain ⟨h4, hv, hs1⟩ := indentationFrom_parse_ok hfrom
    subst hv
    subst hs1
    simp only [takeTill, takeRun] at h
    split at h
    · exact absurd h (by simp)
    · rename_i hne
      split at h
      · exact absurd h (by simp)
      · rename_i le s3 hle
        rw [Prod.mk.injEq] at h
        obtain ⟨h1, h2⟩ := h
        cases h1
        subst h2
        have hlen1 := takeWhile_length_add_dropWhile_length isMdWs s.content
        have hlen2 := takeWhile_length_add_dropWhile_length
          (fun c => !(c == '\r' || c == '\n')) (s.content.dropWhile isMdWs)
        simp only [IndentedNonblankLine.to_span, IndentationFrom.to_span,
          TokenStream.to_span]
        rcases optLineEnding_cases hle with ⟨hno, hs3⟩ | ⟨hsp, hlt, hcons⟩
        · subst hno
          subst hs3
          dsimp only [optLineEndingSpan]
          simp only [Span.union, Span.Range.injEq]
          refine ⟨?_, ?_⟩ <;> omega
        · rw [hsp]
          simp only [ts_start, ts_content] at hcons hlt ⊢
          simp only [Span.union, Span.Range.injEq]
          refine ⟨?_, ?_⟩ <;> omega

theorem atx_heading_span {s : TokenStream} {hd : ATXHeading}
    {rest : TokenStream} (h : ATXHeading.parse s = (.ok hd, rest)) :
    hd.to_span =
      Span.Range s.start
        (s.start + (s.content.length - rest.content.length)) := by
  simp only [ATXHeading.parse] at h
  split at h
  · exact absurd h (by simp)
  · rename_i iw s1 hto
    obtain ⟨hN, hiw, hs1⟩ := indentationTo_parse_ok hto
    subst hiw
    subst hs1
    split at h
    · exact absurd h (by simp)
    · rename_i pounds s2 hpo
      obtain ⟨hrun, h1le, hs2⟩ := parseLeadingPounds_ok hpo
      subst hrun
      subst hs2
      simp only [takeRun, ts_start, ts_content] at h
      split at h
      · exact absurd h (by simp)
      · rename_i le s4 hle
        split at h
        · exact absurd h (by simp)
        · rename_i hguard
          rw [Prod.mk.injEq] at h
          obtain ⟨h1, h2⟩ := h
          cases h1
          subst h2
          have hlen1 := takeWhile_length_add_dropWhile_length isMdWs s.content
          have hlen2 := takeWhile_length_add_dropWhile_length (· == '#')
            (s.content.dropWhile isMdWs)
          have hlen3 := takeWhile_length_add_dropWhile_length
            (fun c => c != '\r' && c != '\n')
            ((s.content.dropWhile isMdWs).dropWhile (· == '#'))
          have hlen4 := takeWhile_length_add_dropWhile_length
            isUnicodeWhitespace
            (((s.content.dropWhile isMdWs).dropWhile (· == '#')).takeWhile
              (fun c => c != '\r' && c != '\n'))
          simp only [ATXHeading.to_span, IndentationTo.to_span,
            TokenStream.to_span, ts_start, ts_content]
          rcases optLineEnding_cases hle with ⟨hno, hs4⟩ | ⟨hsp, hlt, hcons⟩
          · subst hno
            subst hs4
            dsimp only [optLineEndingSpan]
            simp only [Span.union, Span.Range.injEq]
            refine ⟨?_, ?_⟩ <;> omega
          · rw [hsp]
            simp only [ts_start, ts_content] at hcons hlt ⊢
            simp only [Span.union, Span.Range.injEq]
            refine ⟨?_, ?_⟩ <;> omega

theorem fenced_block_span {s : TokenStream} {r : FencedCodeBlock}
    {rest : TokenStream}
    (h : FencedCodeBlock.parse s = some (.ok r, rest)) :
    r.to_span =
      Span.Range s.start
        (s.start + (s.content.length - rest.content.length)) := by
  simp only [FencedCodeBlock.parse] at h
  split at h
  · exact absurd h (by simp)
  · rename_i fst s1 hf
    obtain ⟨k, hk3, hkle, hfi, hs1⟩ := fenced_parse_ok hf
    split at h
    · rename_i body s2 htu
      split at h
      · exact absurd h (by simp)
      · rename_i fend s3 hf2
        obtain ⟨k2, hk23, hk2le, hfi2, hs3⟩ := fenced_parse_ok hf2
        split at h
        · rename_i heq
          rw [Option.some.injEq, Prod.mk.injEq] at h
          obtain ⟨h1, h2⟩ := h
          cases h1
          subst h2
          simp only [takeUntilTS, Option.map_eq_some'] at htu
          obtain ⟨i, hio, hbody⟩ := htu
          rw [Prod.mk.injEq] at hbody
          obtain ⟨hb1, hb2⟩ := hbody
          subst hb1
          subst hb2
          have hi := firstOcc_le_length hio
          subst hs1
          subst hs3
          simp only [ts_start, ts_content, List.length_drop] at hi hk2le
          simp only [FencedCodeBlock.to_span, Fenced.to_span, optFencedSpan,
            hfi, hfi2, TokenStream.to_span, ts_start, ts_content,
            List.length_take, List.length_drop]
          simp only [Span.union, Span.Range.injEq]
          refine ⟨?_, ?_⟩ <;> omega
        · exact absurd h (by simp)
    · rename_i htu
      rw [Option.some.injEq, Prod.mk.injEq] at h
      obtain ⟨h1, h2⟩ := h
      cases h1
      subst h2
      subst hs1
      simp only [FencedCodeBlock.to_span, Fenced.to_span, optFencedSpan,
        hfi, TokenStream.to_span, ts_start, ts_content, List.length_take,
        List.length_drop, List.length_nil]
      simp only [Span.union, Span.Range.injEq]
      refine ⟨?_, ?_⟩ <;> omega

@[simp] theorem tb_line_ending (a : IndentationTo 3) (b : PunctuatedTB)
    (c : Option LineEnding) : (ThematicBreaks.mk a b c).line_ending = c := rfl

theorem thematic_breaks_span {s : TokenStream} {tb : ThematicBreaks}
    {rest : TokenStream} (h : ThematicBreaks.parse s = (.ok tb, rest)) :
    tb.to_span =
      Span.Range s.start
        (s.start + (s.content.length - rest.content.length) -
          lineEndingLen tb.line_ending) := by
  simp only [ThematicBreaks.parse] at h
  split at h
  · exact absurd h (by simp)
  · rename_i iw s1 hto
    obtain ⟨hN, hiw, hs1⟩ := indentationTo_parse_ok hto
    have hlen1 := takeWhile_length_add_dropWhile_length isMdWs s.content
    have hpb := punctuatedBreaks_span (s1.content.length + 1) s1
      (punctuatedBreaks (s1.content.length + 1) s1).1
      (punctuatedBreaks (s1.content.length + 1) s1).2 (by omega) rfl
    split at h
    · -- no pairs
      rename_i hhead
      split at h
      · rename_i tail htail
        rcases hpb with ⟨hp1, hp2⟩ | ⟨hsp, hle2, hcons2⟩
        · rw [hp1] at htail
          simp at htail
        · split at h
          · exact absurd h (by simp)
          · rename_i h3
            split at h
            · exact absurd h (by simp)
            · rename_i le s3 hle
              split at h
              · exact absurd h (by simp)
              · rename_i hguard
                rw [Prod.mk.injEq] at h
                obtain ⟨h1, h2⟩ := h
                cases h1
                subst h2
                obtain ⟨hst3, hcons3⟩ := optLineEnding_ok hle
                subst hiw
                subst hs1
                simp only [ThematicBreaks.to_span, IndentationTo.to_span,
                  TokenStream.to_span, ts_start, ts_content, tb_line_ending]
                rw [hsp]
                simp only [ts_start, ts_content] at hle2 hcons2 hst3 hcons3
                simp only [Span.union, Span.Range.injEq]
                refine ⟨?_, ?_⟩ <;> omega
      · exact absurd h (by simp)
    · -- some pairs
      rename_i first snd hhead
      rcases hpb with ⟨hp1, hp2⟩ | ⟨hsp, hle2, hcons2⟩
      · rw [hp1] at hhead
        simp at hhead
      · split at h
        · exact absurd h (by simp)
        · rename_i len0 hck
          split at h
          · rename_i tail htail
            split at h
            · exact absurd h (by simp)
            · rename_i hvt
              obtain ⟨h3, le, hle, htb, hend⟩ := finishBreaks_ok h
              subst htb
              obtain ⟨hst3, hcons3⟩ := optLineEnding_ok hle
              subst hiw
              subst hs1
              simp only [ThematicBreaks.to_span, IndentationTo.to_span,
                TokenStream.to_span, ts_start, ts_content, tb_line_ending]
              rw [hsp]
              simp only [ts_start, ts_content] at hle2 hcons2 hst3 hcons3
              simp only [Span.union, Span.Range.injEq]
              refine ⟨?_, ?_⟩ <;> omega
          · obtain ⟨h3, le, hle, htb, hend⟩ := finishBreaks_ok h
            subst htb
            obtain ⟨hst3, hcons3⟩ := optLineEnding_ok hle
            subst hiw
            subst hs1
            simp only [ThematicBreaks.to_span, IndentationTo.to_span,
              TokenStream.to_span, ts_start, ts_content, tb_line_ending]
            rw [hsp]
            simp only [ts_start, ts_content] at hle2 hcons2 hst3 hcons3
            simp only [Span.union, Span.Range.injEq]
            refine ⟨?_, ?_⟩ <;> omega

/-- C2, counterexample: on `"- - -\n"` the parse consumes the whole
input (six characters, the cursor ends at offset 6 with nothing left),
but `ThematicBreaks::to_span` unions only the indentation and the
delimiter list — the line ending is omitted — so the reported span is
`0..5`, not the consumed `0..6`. -/
theorem thematic_to_span_misses_line_ending :
    (ThematicBreaks.parse ⟨0, "- - -\n".toList⟩).2 = ⟨6, []⟩
    ∧ Except.map ThematicBreaks.to_span
        (ThematicBreaks.parse ⟨0, "- - -\n".toList⟩).1 =
        .ok (Span.Range 0 5)
    ∧ Span.Range 0 5 ≠ Span.Range 0 6 := by decide

/-- C2 (amended): for every successfully parsed `IndentedNonblankLine`,
`ATXHeading` and `FencedCodeBlock`, `to_span` equals the span of the
consumed input (for `ATXHeading` the separator sub-span is skipped in
the union, but the enclosing range still covers it); for
`ThematicBreaks`, `to_span` omits the optional line ending and equals
the consumed span minus the trailing line ending. -/
theorem node_span_coverage :
    (∀ (s : TokenStream) (nb : IndentedNonblankLine) (rest : TokenStream),
      IndentedNonblankLine.parse s = (.ok nb, rest) →
      nb.to_span = Span.Range s.start
        (s.start + (s.content.length - rest.content.length)))
    ∧ (∀ (s : TokenStream) (hd : ATXHeading) (rest : TokenStream),
      ATXHeading.parse s = (.ok hd, rest) →
      hd.to_span = Span.Range s.start
        (s.start + (s.content.length - rest.content.length)))
    ∧ (∀ (s : TokenStream) (r : FencedCodeBlock) (rest : TokenStream),
      FencedCodeBlock.parse s = some (.ok r, rest) →
      r.to_span = Span.Range s.start
        (s.start + (s.content.length - rest.content.length)))
    ∧ (∀ (s : TokenStream) (tb : ThematicBreaks) (rest : TokenStream),
      ThematicBreaks.parse s = (.ok tb, rest) →
      tb.to_span = Span.Range s.start
        (s.start + (s.content.length - rest.content.length) -
          lineEndingLen tb.line_ending)) :=
  ⟨fun _ _ _ h => nonblank_line_span h,
   fun _ _ _ h => atx_heading_span h,
   fun _ _ _ h => fenced_block_span h,
   fun _ _ _ h => thematic_breaks_span h⟩

/-- Witness for C2: the four conjuncts applied at concrete parses. -/
theorem node_span_coverage_witness :
    IndentedNonblankLine.to_span
      ⟨⟨⟨0, "    ".toList⟩⟩, ⟨4, "x".toList⟩, none⟩ = Span.Range 0 5
    ∧ ATXHeading.to_span
      ⟨⟨⟨0, []⟩⟩, ⟨0, "#".toList⟩, ⟨1, " ".toList⟩, ⟨2, "x".toList⟩, none⟩ =
        Span.Range 0 3
    ∧ FencedCodeBlock.to_span
      ⟨⟨⟨0, "~~~~".toList⟩⟩, ⟨4, "\naaa\n~~~\n".toList⟩, none⟩ =
        Span.Range 0 13
    ∧ ThematicBreaks.to_span
      ⟨⟨⟨0, []⟩⟩,
       ⟨[(.Minus ⟨0, "-".toList⟩, ⟨⟨1, " ".toList⟩⟩),
         (.Minus ⟨2, "-".toList⟩, ⟨⟨3, " ".toList⟩⟩)],
        some (.Minus ⟨4, "-".toList⟩)⟩,
       some (.LF ⟨5, "\n".toList⟩)⟩ = Span.Range 0 5 :=
  ⟨node_span_coverage.1 ⟨0, "    x".toList⟩ _ ⟨5, []⟩ (by decide),
   node_span_coverage.2.1 ⟨0, "# x".toList⟩ _ ⟨3, []⟩ (by decide),
   node_span_coverage.2.2.1 ⟨0, "~~~~\naaa\n~~~\n".toList⟩ _ ⟨4, []⟩
     (by decide),
   node_span_coverage.2.2.2 ⟨0, "- - -\n".toList⟩ _ ⟨6, []⟩ (by decide)⟩

theorem replicate_getLast {k : Nat} {c : Char} (hk : k ≠ 0) :
    (List.replicate k c).getLast? = some c := by
  cases k with
  | zero => exact absurd rfl hk
  | succ m =>
    rw [List.replicate_succ']
    exact List.getLast?_concat _

theorem takeWhile_replicate_append {c : Char} (k : Nat) {t : List Char}
    (ht : t.head? ≠ some c) :
    (List.replicate k c ++ t).takeWhile (· == c) = List.replicate k c ∧
    (List.replicate k c ++ t).dropWhile (· == c) = t := by
  induction k with
  | zero =>
    simp only [List.replicate_zero, List.nil_append]
    cases hc : t with
    | nil => simp
    | cons a t' =>
      have ha : ¬((a == c) = true) := by
        rw [hc] at ht
        simp only [List.head?_cons] at ht
        simpa using fun he => ht (by rw [he])
      rw [List.takeWhile_cons_of_neg (p := (· == c)) ha,
        List.dropWhile_cons_of_neg (p := (· == c)) ha]
      exact ⟨rfl, rfl⟩
  | succ m ih =>
    rw [List.replicate_succ, List.cons_append,
      List.takeWhile_cons_of_pos (by simp),
      List.dropWhile_cons_of_pos (by simp)]
    exact ⟨by rw [ih.1], ih.2⟩

theorem prefix_of_append_block {c : Char} {n : Nat} {b X : List Char}
    (hb0 : b ≠ []) (hbl : b.getLast? ≠ some c)
    (hbi : ¬ (List.replicate n c <:+: b))
    (h : List.replicate n c <+: b ++ X) : False := by
  have htake : List.replicate n c = (b ++ X).take n := by
    have := List.prefix_iff_eq_take.mp h
    rwa [List.length_replicate] at this
  by_cases hnb : n ≤ b.length
  · have hbt : (b ++ X).take n = b.take n := by
      rw [List.take_append_eq_append_take,
        show n - b.length = 0 by omega]
      simp
    apply hbi
    have : List.replicate n c = b.take n := by rw [htake, hbt]
    rw [this]
    exact (List.take_prefix n b).isInfix
  · have hb : b = List.replicate b.length c := by
      have h1 : b = (b ++ X).take b.length := (List.take_left b X).symm
      have h2 : (b ++ X).take b.length = ((b ++ X).take n).take b.length := by
        rw [List.take_take, Nat.min_eq_left (by omega)]
      have h3 : b = (List.replicate n c).take b.length := by
        rw [htake]
        exact h1.trans h2
      rw [List.take_replicate, Nat.min_eq_left (by omega)] at h3
      exact h3
    apply hbl
    rw [hb]
    exact replicate_getLast (by
      intro hz
      rw [List.length_eq_zero] at hz
      exact hb0 hz)

theorem firstOcc_at_zero {pat l : List Char} (hp : pat.isPrefixOf l = true)
    (hl : l ≠ []) : firstOcc pat l = some 0 := by
  cases l with
  | nil => exact absurd rfl hl
  | cons a t => simp [firstOcc, hp]

theorem firstOcc_replicate_pos {c : Char} {n : Nat} (hn : 1 ≤ n)
    (tail : List Char) :
    firstOcc (List.replicate n c) (List.replicate n c ++ tail) = some 0 := by
  apply firstOcc_at_zero
  · exact List.isPrefixOf_iff_prefix.mpr (List.prefix_append _ _)
  · intro hc
    have := congrArg List.length hc
    simp at this
    omega

theorem firstOcc_replicate_main {c : Char} {n : Nat} (hn : 1 ≤ n)
    (tail : List Char) :
    ∀ b : List Char, b.getLast? ≠ some c →
      ¬ (List.replicate n c <:+: b) →
      firstOcc (List.replicate n c)
        (b ++ List.replicate n c ++ tail) = some b.length := by
  intro b
  induction b with
  | nil =>
    intro _ _
    simpa using firstOcc_replicate_pos hn tail
  | cons x b' ih =>
    intro hbl hbi
    have hbl' : b'.getLast? ≠ some c := by
      cases hb' : b' with
      | nil => simp
      | cons y l =>
        rw [hb'] at hbl
        rwa [List.getLast?_cons_cons] at hbl
    have hbi' : ¬ (List.replicate n c <:+: b') := by
      intro hc
      exact hbi (List.infix_cons hc)
    have hx := ih hbl' hbi'
    rw [List.append_assoc] at hx
    have hnp : ¬ (List.replicate n c).isPrefixOf
        (x :: (b' ++ (List.replicate n c ++ tail))) = true := by
      intro hp
      exact prefix_of_append_block (b := x :: b')
        (X := List.replicate n c ++ tail) (by simp) hbl hbi
        (List.isPrefixOf_iff_prefix.mp hp)
    rw [List.append_assoc]
    show firstOcc (List.replicate n c)
      (x :: (b' ++ (List.replicate n c ++ tail))) = some (x :: b').length
    simp only [firstOcc]
    rw [if_neg hnp, hx]
    simp

theorem fenced_parse_replicate {c : Char} {n : Nat} (st : Nat) {t : List Char}
    (hc : isFenceChar c = true) (hn : 3 ≤ n) (ht : t.head? ≠ some c) :
    Fenced.parse ⟨st, List.replicate n c ++ t⟩ =
      (.ok ⟨⟨st, List.replicate n c⟩⟩, ⟨st + n, t⟩) := by
  obtain ⟨m, rfl⟩ : ∃ m, n = m + 3 := ⟨n - 3, by omega⟩
  have hrw : List.replicate (m + 3) c ++ t =
      c :: (List.replicate (m + 2) c ++ t) := by
    rw [List.replicate_succ, List.cons_append]
  have htw := takeWhile_replicate_append (c := c) (m + 2) ht
  rw [hrw]
  simp only [Fenced.parse, ts_content, ts_start, List.head?_cons]
  rw [if_pos hc]
  simp only [takeRun, TokenStream.advance, TokenStream.split_to, ts_content,
    ts_start, List.drop_succ_cons, List.drop_zero]
  rw [htw.1, List.length_replicate]
  rw [List.take_succ_cons,
    List.take_left' (List.length_replicate _ _),
    List.drop_left' (List.length_replicate _ _)]
  rw [if_neg (by simp)]
  rw [← List.replicate_succ]

/-- C3, counterexample: `"~~~a~~~~"` has an opening fence of 3 tildes
and a closing tilde sequence of length 4 ≥ 3 before end of input, yet
`FencedCodeBlock::parse` does not return a block — the closing run is
longer than the opening fence and the `assert_eq!` panics (modelled as
`none`). -/
theorem fenced_close_longer_panics :
    FencedCodeBlock.parse ⟨0, "~~~a~~~~".toList⟩ = none
    ∧ ("~~~".toList <:+: "a~~~~".toList) := by
  constructor
  · decide
  · decide

/-- C3 (amended): when, after an opening fence of `n` identical fence
characters, the first closing run of the same character with length ≥ n
has length exactly `n`, `FencedCodeBlock::parse` returns a block whose
body is everything up to that run and whose closing fence is that run,
of length exactly `n`; when the first such closing run is strictly
longer than `n`, the parse does not return a result (the length
assertion fails). -/
theorem fencedCodeBlock_closing_exact (c : Char) (n st : Nat)
    (b rest : List Char) (hc : isFenceChar c = true) (hn : 3 ≤ n)
    (hb0 : b ≠ []) (hbh : b.head? ≠ some c) (hbl : b.getLast? ≠ some c)
    (hbi : ¬ (List.replicate n c <:+: b)) (hr : rest.head? ≠ some c) :
    FencedCodeBlock.parse
      ⟨st, List.replicate n c ++ b ++ List.replicate n c ++ rest⟩ =
      some (.ok ⟨⟨⟨st, List.replicate n c⟩⟩, ⟨st + n, b⟩,
                 some ⟨⟨st + n + b.length, List.replicate n c⟩⟩⟩,
            ⟨st + n + b.length + n, rest⟩) := by
  have hbhx : (b ++ (List.replicate n c ++ rest)).head? ≠ some c := by
    cases hb : b with
    | nil => exact absurd hb hb0
    | cons y l =>
      rw [hb] at hbh
      simpa using hbh
  have hfo := fenced_parse_replicate st hc hn hbhx
  have htu : takeUntilTS (List.replicate n c)
      ⟨st + n, b ++ (List.replicate n c ++ rest)⟩ =
      some (⟨st + n, b⟩,
            ⟨st + n + b.length, List.replicate n c ++ rest⟩) := by
    simp only [takeUntilTS, ts_content, ts_start]
    rw [show b ++ (List.replicate n c ++ rest) =
        b ++ List.replicate n c ++ rest from
      (List.append_assoc _ _ _).symm]
    rw [firstOcc_replicate_main (by omega) rest b hbl hbi]
    simp only [Option.map_some']
    rw [List.append_assoc, List.take_left' rfl, List.drop_left' rfl]
  have hfc2 := fenced_parse_replicate (st + n + b.length) hc hn hr
  have hassoc : List.replicate n c ++ b ++ List.replicate n c ++ rest =
      List.replicate n c ++ (b ++ (List.replicate n c ++ rest)) := by
    simp [List.append_assoc]
  rw [hassoc]
  simp only [FencedCodeBlock.parse, hfo, htu, hfc2, List.length_replicate,
    eq_self_iff_true, if_true]

/-- Witness for C3: the amended theorem applied at an opening fence of
three tildes, body `"a"`, closing fence of exactly three tildes and an
empty remainder. -/
theorem fencedCodeBlock_closing_exact_witness :
    FencedCodeBlock.parse ⟨0, "~~~a~~~".toList⟩ =
      some (.ok ⟨⟨⟨0, "~~~".toList⟩⟩, ⟨3, "a".toList⟩,
                 some ⟨⟨4, "~~~".toList⟩⟩⟩,
            ⟨7, []⟩) := by
  have h := fencedCodeBlock_closing_exact '~' 3 0 "a".toList []
    (by decide) (by decide) (by decide) (by decide) (by decide)
    (by decide) (by decide)
  exact h

/-- Witness for C4: the invariants applied to the parse of `"- - -"`,
and the `Recovable` failure applied to the parse of `"- * -"`. -/
theorem thematicBreaks_validity_witness :
    (3 ≤ PunctuatedTB.totalLen
      ⟨[(.Minus ⟨0, "-".toList⟩, ⟨⟨1, " ".toList⟩⟩),
        (.Minus ⟨2, "-".toList⟩, ⟨⟨3, " ".toList⟩⟩)],
       some (.Minus ⟨4, "-".toList⟩)⟩)
    ∧ (MarkDownError.Kind .Thematic .Recovable (.Range 2 3)).control_flow =
        .Recovable := by
  constructor
  · exact (thematicBreaks_validity.1 ⟨0, "- - -".toList⟩
      ⟨⟨⟨0, []⟩⟩,
       ⟨[(.Minus ⟨0, "-".toList⟩, ⟨⟨1, " ".toList⟩⟩),
         (.Minus ⟨2, "-".toList⟩, ⟨⟨3, " ".toList⟩⟩)],
        some (.Minus ⟨4, "-".toList⟩)⟩,
       none⟩ ⟨5, []⟩ (by decide)).2.1
  · exact thematicBreaks_validity.2.1 ⟨0, "- * -".toList⟩ _ ⟨5, []⟩
      (by decide)

/-- C8: the interleaving test input parses into exactly the four chunks
non-blank, blank, blank, non-blank with the literal slices of the input
at the corresponding offsets; in general a successful non-blank chunk
has at least 4 columns of indentation and non-empty content, and empty
content after satisfying the indentation is a `Recovable` failure. -/
theorem indentedCodeBlock_chunks :
    (IndentedCodeBlock.parse ⟨0, "     hello\n\n   \n    world".toList⟩ =
      (.ok ⟨[
        .NonBlank ⟨⟨⟨0, "     ".toList⟩⟩, ⟨5, "hello".toList⟩,
          some (.LF ⟨10, "\n".toList⟩)⟩,
        .Blank ⟨⟨⟨11, []⟩⟩, .LF ⟨11, "\n".toList⟩⟩,
        .Blank ⟨⟨⟨12, "   ".toList⟩⟩, .LF ⟨15, "\n".toList⟩⟩,
        .NonBlank ⟨⟨⟨16, "    ".toList⟩⟩, ⟨20, "world".toList⟩, none⟩]⟩,
       ⟨25, []⟩))
    ∧ (∀ (s : TokenStream) (nb : IndentedNonblankLine) (rest : TokenStream),
        IndentedNonblankLine.parse s = (.ok nb, rest) →
        4 ≤ nb.identation.inner.content.length ∧ nb.content.content ≠ [])
    ∧ (∀ s : TokenStream, 4 ≤ (s.content.takeWhile isMdWs).length →
        (∀ c, (s.content.dropWhile isMdWs).head? = some c →
          c = '\r' ∨ c = '\n') →
        errInfo (IndentedNonblankLine.parse s).1 =
          some (.IdentationNonblankChunk, .Recovable)) := by
  refine ⟨by decide, ?_, ?_⟩
  · intro s nb rest h
    simp only [IndentedNonblankLine.parse] at h
    split at h
    · exact absurd h (by simp)
    · next v s1 hfrom =>
      obtain ⟨h4, hv, hs1⟩ := indentationFrom_parse_ok hfrom
      simp only [takeTill, takeRun] at h
      split at h
      · exact absurd h (by simp)
      · next hne =>
        split at h
        · exact absurd h (by simp)
        · next le s3 hle =>
          rw [Prod.mk.injEq] at h
          obtain ⟨h1, -⟩ := h
          cases h1
          refine ⟨?_, by simpa using hne⟩
          rw [hv]
          exact h4
  · intro s h4 hc
    have hemp : (s.content.dropWhile isMdWs).takeWhile
        (fun c => !(c == '\r' || c == '\n')) = [] := by
      cases hd : s.content.dropWhile isMdWs with
      | nil => rfl
      | cons a t =>
        have := hc a (by rw [hd]; rfl)
        rcases this with h | h <;>
          · subst h
            apply List.takeWhile_cons_of_neg
            decide
    simp only [IndentedNonblankLine.parse, IndentationFrom.parse, takeRun,
      takeTill, if_neg (by omega : ¬((s.content.takeWhile isMdWs).length < 4)),
      hemp]
    rfl

/-- Witness for C8: the general conjuncts applied to the first line of
the interleaving input and to an all-blank over-indented line. -/
theorem indentedCodeBlock_chunks_witness :
    (4 ≤ (IndentationFrom.mk (N := 4) ⟨0, "     ".toList⟩
        : IndentationFrom 4).inner.content.length
      ∧ ("hello".toList ≠ []))
    ∧ errInfo (IndentedNonblankLine.parse ⟨0, "      \r\n".toList⟩).1 =
        some (.IdentationNonblankChunk, .Recovable) := by
  constructor
  · have h := indentedCodeBlock_chunks.2.1 ⟨0, "     hello".toList⟩
      ⟨⟨⟨0, "     ".toList⟩⟩, ⟨5, "hello".toList⟩, none⟩ ⟨10, []⟩ (by decide)
    exact ⟨h.1, by decide⟩
  · exact indentedCodeBlock_chunks.2.2 ⟨0, "      \r\n".toList⟩ (by decide)
      (by decide)

/-- Witness for C9: both conjuncts at concrete inputs — `"amp"` (no
leading `&`) and `"&abc;"` (unknown name). -/
theorem entity_cursor_witness :
    (Entity.parse ⟨0, "amp".toList⟩ =
      (.error (.Kind .Entity .Recovable (.Range 0 1)), ⟨0, "amp".toList⟩))
    ∧ (Entity.parse ⟨0, '&' :: ("abc".toList ++ ';' :: [])⟩ =
        (.error (.Kind .Entity .Fatal (.Range 0 5)), ⟨5, []⟩)) := by
  constructor
  · exact entity_cursor.1 ⟨0, "amp".toList⟩ (by decide)
  · exact entity_cursor.2 0 "abc".toList [] (by decide) (by decide)
      (by decide)

end MDC
